import Mathlib

/-!
# Initiative Tracker: shallow embedding and verification

This file embeds the state-transition engine of the initiative-tracker web
application (the `InitiativeTracker` component and its helper functions:
`getCellKey`, `migrateValues`, `ensureSingleActive`, `loadStateFromStorage`,
`saveStateToStorage`, `findNextActive`, `isCharacterDeadInPreviousPhase`,
`getRevivedPhaseColumn`, and the callbacks `addParticipant`,
`setParticipantName`, `markDone`, `markDead`, `revive`, `doReset`) into Lean,
and proves properties of the embedding.

Modelling conventions:
* A JavaScript object used as a string-keyed record (`Record<string, ...>`) is
  modelled as an association list `List (String × α)` in insertion order with
  pairwise-distinct keys; `recordGet` models property lookup, `recordSet`
  models property assignment (updating in place when the key is present,
  appending otherwise, as JS preserves insertion order of existing keys).
* Cell coordinates are natural numbers (the application only produces
  non-negative indices).
* `sessionStorage` round trips are modelled structurally: `JSON.stringify`
  followed by `JSON.parse` on an uncorrupted string is the identity on the
  plain data being stored, so storage contents are modelled by the parsed
  JSON shape (`StoredData`) rather than by a character string.
-/

namespace Tracker

/-- The five cell states of `PHASE_CELL_STATES`
(`["waiting", "active", "done", "dead", "revived"]`). -/
inductive PhaseCellState : Type where
  | waiting : PhaseCellState
  | active : PhaseCellState
  | done : PhaseCellState
  | dead : PhaseCellState
  | revived : PhaseCellState
deriving DecidableEq, Repr

open PhaseCellState

/-- The string literal corresponding to each cell state (in the source a cell
state *is* one of these five strings). -/
def PhaseCellState.asString : PhaseCellState → String
  | waiting => "waiting"
  | active => "active"
  | done => "done"
  | dead => "dead"
  | revived => "revived"

/-- `isPhaseCellState`: membership of a string in `PHASE_CELL_STATES`,
returning the decoded state. `none` models a failed guard. -/
def parsePhaseCellState (s : String) : Option PhaseCellState :=
  if s = "waiting" then some waiting
  else if s = "active" then some active
  else if s = "done" then some done
  else if s = "dead" then some dead
  else if s = "revived" then some revived
  else none

/-- `getCellKey(rowIndex, colIndex)`: the template string
`rowIndex-colIndex`. -/
def getCellKey (rowIndex colIndex : Nat) : String :=
  toString rowIndex ++ "-" ++ toString colIndex

/-- Property lookup on a JS record modelled as an association list. -/
def recordGet {α : Type} : List (String × α) → String → Option α
  | [], _ => none
  | (k, v) :: rest, key => if k = key then some v else recordGet rest key

/-- Property assignment on a JS record: overwrite in place when the key is
present (JS objects keep the insertion position of an existing key),
otherwise append the new entry at the end. -/
def recordSet {α : Type} (m : List (String × α)) (key : String) (v : α) :
    List (String × α) :=
  if m.any (fun e => e.1 = key) then
    m.map (fun e => if e.1 = key then (key, v) else e)
  else m ++ [(key, v)]

/-- The `State` type of the engine component: participants, phase labels and
the record of cell states. -/
structure State : Type where
  participants : List String
  phases : List String
  values : List (String × PhaseCellState)
deriving DecidableEq, Repr

/-- `state.values[getCellKey(r, c)] ?? "waiting"`: the state of cell `(r, c)`,
defaulting an absent key to `waiting`. -/
def cellAt (s : State) (r c : Nat) : PhaseCellState :=
  (recordGet s.values (getCellKey r c)).getD waiting

/-! ## The engine functions -/

/-- `migrateValues(raw)`: keep a stored cell value when it is one of the five
known state strings, otherwise coerce it to `"waiting"`.  A raw stored value
that is not a string is modelled as `none` (anything non-string fails the
`isPhaseCellState` guard exactly like an unknown string). -/
def migrateValues (raw : List (String × Option String)) :
    List (String × PhaseCellState) :=
  raw.map (fun e =>
    (e.1, match e.2 with
          | some v => (parsePhaseCellState v).getD PhaseCellState.waiting
          | none => PhaseCellState.waiting))

/-- `ensureSingleActive(state)`: if exactly one entry of `values` is
`"active"` the state is returned unchanged; otherwise every `"active"` entry
is demoted to `"done"` and, when at least one participant and one phase
exist, cell `(0, 0)` is promoted to `"active"`. -/
def ensureSingleActive (state : State) : State :=
  let activeKeys := state.values.filter (fun e => decide (e.2 = PhaseCellState.active))
  if activeKeys.length = 1 then state
  else
    let values1 := activeKeys.foldl
      (fun m e => recordSet m e.1 PhaseCellState.done) state.values
    let values2 :=
      if state.participants.length > 0 ∧ state.phases.length > 0 ∧
          activeKeys.length ≠ 1 then
        recordSet values1 (getCellKey 0 0) PhaseCellState.active
      else values1
  { state with values := values2 }

/-- The parsed shape of a stored session (`JSON.parse` of an uncorrupted
string written by `saveStateToStorage`, or of any legacy JSON object).
Missing object fields are `none`; a stored cell value is `some s` when it is
a JSON string and `none` otherwise. -/
structure StoredData : Type where
  participants : Option (List String)
  phases : Option (List String)
  values : Option (List (String × Option String))
deriving DecidableEq, Repr

/-- The possible outcomes of reading `sessionStorage` in
`loadStateFromStorage`: server-side render (`window` undefined), absent key,
a raw string that fails to parse, or successfully parsed data. -/
inductive StorageRead : Type where
  | noWindow : StorageRead
  | absent : StorageRead
  | corrupt : StorageRead
  | ok : StoredData → StorageRead
deriving DecidableEq, Repr

/-- `JSON.parse` of a JS object yields pairwise-distinct keys; the
wellformedness condition a real storage read always satisfies. -/
def StorageRead.wf : StorageRead → Prop
  | .ok d => ((d.values.getD []).map Prod.fst).Nodup
  | _ => True

/-- The fresh session returned on every fallback path of
`loadStateFromStorage`. -/
def freshState : State :=
  { participants := [], phases := ["Phase 1"], values := [] }

/-- `loadStateFromStorage()`: fall back to a fresh session when `window` is
undefined, the key is absent or parsing throws; otherwise default missing
fields (`data.phases?.length` is falsy for an absent or empty list), migrate
the stored values and repair the Active-uniqueness invariant. -/
def loadStateFromStorage : StorageRead → State
  | .noWindow => freshState
  | .absent => freshState
  | .corrupt => freshState
  | .ok data =>
      let phases := match data.phases with
        | none => ["Phase 1"]
        | some ps => if ps.length = 0 then ["Phase 1"] else ps
      let values := migrateValues (data.values.getD [])
      ensureSingleActive
        { participants := data.participants.getD [], phases := phases,
          values := values }

/-- `saveStateToStorage(state)`: the JSON object written to storage
(`JSON.stringify` of the three fields). -/
def saveStateToStorage (state : State) : StoredData :=
  { participants := some state.participants,
    phases := some state.phases,
    values := some (state.values.map (fun e => (e.1, some e.2.asString))) }

/-- The result record of `findNextActive`: the JS literal
`{ row, col, addPhase?: true }`, with the optional `addPhase` property
modelled as a `Bool` that is `false` when the property is absent. -/
structure NextCell : Type where
  row : Nat
  col : Nat
  addPhase : Bool
deriving DecidableEq, Repr

/-- One fuelled unrolling of the unbounded `for (;;)` scan loop of
`findNextActive`: increment `r`; on reaching `rows`, reset `r` to `0` and
increment `c`; on reaching `cols`, return the append-signal; otherwise
return the cell just reached unless it is `"dead"`.  `none` means the fuel
ran out (the termination theorem shows enough fuel always exists). -/
def findNextActiveLoop (s : State) (rows cols : Nat) :
    Nat → Nat → Nat → Option NextCell
  | 0, _, _ => none
  | fuel + 1, r, c =>
      let r1 := r + 1
      if r1 ≥ rows then
        let c1 := c + 1
        if c1 ≥ cols then some ⟨0, cols, true⟩
        else if cellAt s 0 c1 ≠ PhaseCellState.dead then some ⟨0, c1, false⟩
        else findNextActiveLoop s rows cols fuel 0 c1
      else if cellAt s r1 c ≠ PhaseCellState.dead then some ⟨r1, c, false⟩
      else findNextActiveLoop s rows cols fuel r1 c

/-- Fuel sufficient for the scan loop from any starting position (proved
sufficient below). -/
def findNextFuel (rows cols : Nat) : Nat :=
  rows * cols + rows + cols + 2

/-- `findNextActive(state, fromRow, fromCol)`: `null` when the grid has no
rows or no columns, otherwise the scan loop run with sufficient fuel. -/
def findNextActive (s : State) (fromRow fromCol : Nat) : Option NextCell :=
  let rows := s.participants.length
  let cols := s.phases.length
  if rows = 0 ∨ cols = 0 then none
  else findNextActiveLoop s rows cols (findNextFuel rows cols) fromRow fromCol

/-- `isRowActive(state, rowIndex)`: some phase column of the row is
`"active"`. -/
def isRowActive (s : State) (rowIndex : Nat) : Bool :=
  (List.range s.phases.length).any
    (fun colIndex => decide (cellAt s rowIndex colIndex = PhaseCellState.active))

/-- `isCharacterDeadInPreviousPhase(state, rowIndex, colIndex)`: some column
`c < colIndex` of the row is `"dead"`. -/
def isCharacterDeadInPreviousPhase (s : State) (rowIndex colIndex : Nat) :
    Bool :=
  (List.range colIndex).any
    (fun c => decide (cellAt s rowIndex c = PhaseCellState.dead))

/-- `isCharacterRevivedInAnyPhase(state, rowIndex)`: some phase column of
the row is `"revived"`. -/
def isCharacterRevivedInAnyPhase (s : State) (rowIndex : Nat) : Bool :=
  (List.range s.phases.length).any
    (fun colIndex => decide (cellAt s rowIndex colIndex = PhaseCellState.revived))

/-- `getRevivedPhaseColumn(state, rowIndex)`: first phase column where this
row is `"revived"`, or `null` if never revived (the source's
`phases.findIndex` over column indices). -/
def getRevivedPhaseColumn (s : State) (rowIndex : Nat) : Option Nat :=
  (List.range s.phases.length).find?
    (fun colIndex => decide (cellAt s rowIndex colIndex = PhaseCellState.revived))

/-- The shared body of the `markDone`, `markDead` and `revive` callbacks:
no-op (`none`, no storage write) unless cell `(rowIndex, colIndex)` is
`"active"`; otherwise write `newState` to that cell, run the advancement
scan on the *original* state, append a phase label on the append-signal and
activate the selected cell, and save (`some` result). -/
def transitionCell (s : State) (rowIndex colIndex : Nat)
    (newState : PhaseCellState) : Option State :=
  let key := getCellKey rowIndex colIndex
  if cellAt s rowIndex colIndex ≠ PhaseCellState.active then
    none
  else
    let values1 := recordSet s.values key newState
    match findNextActive s rowIndex colIndex with
    | none => some { s with values := values1 }
    | some nextCell =>
        let phases1 :=
          if nextCell.addPhase then
            s.phases ++ ["Phase " ++ toString (s.phases.length + 1)]
          else s.phases
        let values2 := recordSet values1
          (getCellKey nextCell.row nextCell.col) PhaseCellState.active
        some { s with phases := phases1, values := values2 }

/-- `markDone(rowIndex, colIndex)` as a state action: `none` when the early
return fires (no save), otherwise the saved state.  The cell is set to
`"dead"` when the row was dead in an earlier phase, else `"done"`. -/
def markDoneAct (s : State) (rowIndex colIndex : Nat) : Option State :=
  transitionCell s rowIndex colIndex
    (if isCharacterDeadInPreviousPhase s rowIndex colIndex then
      PhaseCellState.dead
    else PhaseCellState.done)

/-- `markDead(rowIndex, colIndex)` as a state action: sets the active cell
to `"dead"` unconditionally. -/
def markDeadAct (s : State) (rowIndex colIndex : Nat) : Option State :=
  transitionCell s rowIndex colIndex PhaseCellState.dead

/-- `revive(rowIndex, colIndex)` as a state action: sets the active cell to
`"revived"`. -/
def reviveAct (s : State) (rowIndex colIndex : Nat) : Option State :=
  transitionCell s rowIndex colIndex PhaseCellState.revived

/-- The component state after the `markDone` callback (unchanged when the
action is a no-op). -/
def markDone (s : State) (rowIndex colIndex : Nat) : State :=
  (markDoneAct s rowIndex colIndex).getD s

/-- The component state after the `markDead` callback. -/
def markDead (s : State) (rowIndex colIndex : Nat) : State :=
  (markDeadAct s rowIndex colIndex).getD s

/-- The component state after the `revive` callback. -/
def revive (s : State) (rowIndex colIndex : Nat) : State :=
  (reviveAct s rowIndex colIndex).getD s

/-- `addParticipant()`: append an empty participant name and repair the
Active-uniqueness invariant. -/
def addParticipant (s : State) : State :=
  ensureSingleActive { s with participants := s.participants ++ [""] }

/-- `setParticipantName(rowIndex, name)`: overwrite one participant name
(the UI only calls this with `rowIndex` in range; `List.set` is the
identity out of range). -/
def setParticipantName (s : State) (rowIndex : Nat) (name : String) : State :=
  { s with participants := s.participants.set rowIndex name }

/-- `doReset()`: the fresh session saved by the reset dialog's Clear
action. -/
def doReset (_ : State) : State :=
  { participants := [], phases := ["Phase 1"], values := [] }

/-- The rendered label of a cell whose stored state is `"dead"`: `"Done"`
when revival occurred at an earlier column (`showAsDone`), else `"Dead"`. -/
def renderDeadCellLabel (s : State) (rowIndex colIndex : Nat) : String :=
  match getRevivedPhaseColumn s rowIndex with
  | none => "Dead"
  | some revivedCol => if colIndex > revivedCol then "Done" else "Dead"

/-- The number of `"active"` entries of a values record
(`Object.entries(values).filter(([_, s]) => s === "active").length`). -/
def countActive (m : List (String × PhaseCellState)) : Nat :=
  (m.filter (fun e => decide (e.2 = PhaseCellState.active))).length

/-- Pairwise-distinct keys: every JS object satisfies this. -/
def keysNodup {α : Type} (m : List (String × α)) : Prop :=
  (m.map Prod.fst).Nodup

/-- The session states reachable in the application: a load (from any
storage contents), followed by any sequence of user actions. -/
inductive Reachable : State → Prop where
  | load (read : StorageRead) (hwf : read.wf) :
      Reachable (loadStateFromStorage read)
  | addParticipant {s : State} (hs : Reachable s) :
      Reachable (Tracker.addParticipant s)
  | setParticipantName {s : State} (hs : Reachable s)
      (rowIndex : Nat) (name : String) :
      Reachable (Tracker.setParticipantName s rowIndex name)
  | markDone {s : State} (hs : Reachable s) (rowIndex colIndex : Nat) :
      Reachable (Tracker.markDone s rowIndex colIndex)
  | markDead {s : State} (hs : Reachable s) (rowIndex colIndex : Nat) :
      Reachable (Tracker.markDead s rowIndex colIndex)
  | revive {s : State} (hs : Reachable s) (rowIndex colIndex : Nat) :
      Reachable (Tracker.revive s rowIndex colIndex)
  | reset {s : State} (hs : Reachable s) :
      Reachable (doReset s)

/-- Decimal decoding of a digit list, used to invert `Nat.toDigits`. -/
def decodeDigits (l : List Char) : Nat :=
  l.foldl (fun a ch => 10 * a + (ch.toNat - 48)) 0

/-! ## Specification-side definitions

These definitions state, independently of the loop, what the spec describes:
the scan order of the advancement algorithm, its first non-dead hit, a fuel
measure, and the frame of a transition. -/

/-- The scan order of the advancement algorithm, as the spec words it: from
`(fromRow, fromCol)`, increment the row; on reaching the row count, reset
the row to `0` and increment the column; stop before the column reaches
`cols`.  This lists every in-grid position strictly after the start in that
order. -/
def scanList (rows cols fromRow fromCol : Nat) : List (Nat × Nat) :=
  ((List.range' (fromRow + 1) (rows - (fromRow + 1))).map
      (fun r => (r, fromCol))) ++
    ((List.range' (fromCol + 1) (cols - (fromCol + 1))).flatMap
      (fun c => (List.range rows).map (fun r => (r, c))))

/-- The first position of a scan-order list whose cell is not `"dead"`, or
the append-signal `(0, cols, addPhase)` when every listed cell is dead. -/
def scanFirst (s : State) (cols : Nat) : List (Nat × Nat) → NextCell
  | [] => ⟨0, cols, true⟩
  | p :: rest =>
      if cellAt s p.1 p.2 ≠ PhaseCellState.dead then ⟨p.1, p.2, false⟩
      else scanFirst s cols rest

/-- An upper bound on the number of iterations the scan loop performs from
position `(r, c)`. -/
def scanMeasure (rows cols r c : Nat) : Nat :=
  (cols - c) * (rows + 1) + (rows - r) + 2

/-- The frame of a transition at active cell `(row, col)` producing `s'`:
participants unchanged; phases unchanged unless the advancement scan signals
append, in which case exactly one label is appended; the values map changed
at most at `(row, col)` and at the newly activated cell. -/
def FrameSpec (s : State) (row col : Nat) (s' : State) : Prop :=
  s'.participants = s.participants ∧
  (match findNextActive s row col with
   | none =>
       s'.phases = s.phases ∧
       ∀ r' c', ¬(r' = row ∧ c' = col) → cellAt s' r' c' = cellAt s r' c'
   | some nc =>
       (if nc.addPhase then (∃ label, s'.phases = s.phases ++ [label])
        else s'.phases = s.phases) ∧
       ∀ r' c', ¬(r' = row ∧ c' = col) → ¬(r' = nc.row ∧ c' = nc.col) →
         cellAt s' r' c' = cellAt s r' c')

/-- The start state of the spec's two-participant scenario: participants
`["A", "B"]`, one phase, `A` active at `(0, 0)`. -/
def walkthroughStart : State :=
  { participants := ["A", "B"], phases := ["Phase 1"],
    values := [(getCellKey 0 0, PhaseCellState.active)] }

/-! ## Injectivity of `getCellKey`

The key `r + "-" + c` determines `(r, c)` because decimal numerals contain no
dash.  We prove this from the core definition of `Nat.repr`. -/

theorem digitChar_ne_dash (n : Nat) : Nat.digitChar n ≠ '-' := by
  rcases Nat.lt_or_ge n 16 with h | h
  · interval_cases n <;> decide
  · have hstar : Nat.digitChar n = '*' := by
      unfold Nat.digitChar
      repeat rw [if_neg (by omega)]
    rw [hstar]
    decide

theorem toDigitsCore_append (b fuel n : Nat) (ds : List Char) :
    Nat.toDigitsCore b fuel n ds = Nat.toDigitsCore b fuel n [] ++ ds := by
  induction fuel generalizing n ds with
  | zero => simp [Nat.toDigitsCore]
  | succ fuel ih =>
    simp only [Nat.toDigitsCore]
    split
    · simp
    · rw [ih (n / b) (Nat.digitChar (n % b) :: ds),
        ih (n / b) [Nat.digitChar (n % b)], List.append_assoc]
      simp

theorem mem_toDigitsCore (b fuel n : Nat) (ds : List Char) (ch : Char)
    (h : ch ∈ Nat.toDigitsCore b fuel n ds) :
    ch ∈ ds ∨ ∃ m, ch = Nat.digitChar m := by
  induction fuel generalizing n ds with
  | zero => exact Or.inl h
  | succ fuel ih =>
    simp only [Nat.toDigitsCore] at h
    split at h
    · rcases List.mem_cons.mp h with h | h
      · exact Or.inr ⟨n % b, h⟩
      · exact Or.inl h
    · rcases ih (n / b) (Nat.digitChar (n % b) :: ds) h with h | h
      · rcases List.mem_cons.mp h with h | h
        · exact Or.inr ⟨n % b, h⟩
        · exact Or.inl h
      · exact Or.inr h

theorem dash_not_mem_toDigits (n : Nat) : '-' ∉ Nat.toDigits 10 n := by
  intro h
  rcases mem_toDigitsCore 10 (n + 1) n [] '-' h with h | ⟨m, h⟩
  · simp at h
  · exact digitChar_ne_dash m h.symm

theorem digitChar_toNat (m : Nat) (h : m < 10) :
    (Nat.digitChar m).toNat = 48 + m := by
  interval_cases m <;> decide

theorem toDigitsCore_foldl (fuel : Nat) :
    ∀ n a : Nat, n < fuel →
      (Nat.toDigitsCore 10 fuel n []).foldl
          (fun a ch => 10 * a + (ch.toNat - 48)) a =
        a * 10 ^ (Nat.toDigitsCore 10 fuel n []).length + n := by
  induction fuel with
  | zero => intro n a h; omega
  | succ fuel ih =>
    intro n a h
    simp only [Nat.toDigitsCore]
    split
    · rename_i hn
      have hlt : n < 10 := by omega
      have hmod : n % 10 = n := Nat.mod_eq_of_lt hlt
      simp only [List.foldl, List.length_cons, List.length_nil, hmod,
        digitChar_toNat n hlt]
      have h48 : 48 + n - 48 = n := by omega
      rw [h48, pow_one]
      ring
    · rename_i hn
      have hn10 : 10 ≤ n := by
        by_contra hlt
        exact hn (Nat.div_eq_of_lt (by omega))
      have hrec : n / 10 < fuel := by
        have h1 : n / 10 < n := Nat.div_lt_self (by omega) (by omega)
        omega
      rw [toDigitsCore_append 10 fuel (n / 10) [Nat.digitChar (n % 10)]]
      rw [List.foldl_append, ih (n / 10) a hrec]
      simp only [List.foldl, List.length_append, List.length_cons,
        List.length_nil]
      rw [digitChar_toNat (n % 10) (Nat.mod_lt _ (by omega))]
      have : 48 + n % 10 - 48 = n % 10 := by omega
      rw [this, Nat.pow_succ]
      have hdm : 10 * (n / 10) + n % 10 = n := by omega
      ring_nf
      omega

theorem decodeDigits_toDigits (n : Nat) :
    decodeDigits (Nat.toDigits 10 n) = n := by
  have := toDigitsCore_foldl (n + 1) n 0 (by omega)
  simpa [decodeDigits, Nat.toDigits] using this

theorem toDigits_injective (m n : Nat)
    (h : Nat.toDigits 10 m = Nat.toDigits 10 n) : m = n := by
  have := decodeDigits_toDigits m
  rw [h, decodeDigits_toDigits] at this
  exact this.symm

theorem natRepr_injective (m n : Nat) (h : Nat.repr m = Nat.repr n) :
    m = n := by
  apply toDigits_injective
  have hd := congrArg String.data h
  simpa [Nat.repr, List.asString] using hd

theorem dash_not_mem_natRepr (n : Nat) : '-' ∉ (Nat.repr n).data := by
  have : (Nat.repr n).data = Nat.toDigits 10 n := by
    simp [Nat.repr, List.asString]
  rw [this]
  exact dash_not_mem_toDigits n

theorem append_dash_injective (l₁ l₂ l₃ l₄ : List Char)
    (h₁ : '-' ∉ l₁) (h₃ : '-' ∉ l₃)
    (h : l₁ ++ '-' :: l₂ = l₃ ++ '-' :: l₄) : l₁ = l₃ ∧ l₂ = l₄ := by
  induction l₁ generalizing l₃ with
  | nil =>
    cases l₃ with
    | nil => simpa using h
    | cons c t =>
      simp only [List.nil_append, List.cons_append, List.cons.injEq] at h
      exact absurd (h.1 ▸ List.mem_cons_self c t) h₃
  | cons c t ih =>
    cases l₃ with
    | nil =>
      simp only [List.cons_append, List.nil_append, List.cons.injEq] at h
      exact absurd (h.1 ▸ List.mem_cons_self c t) h₁
    | cons c' t' =>
      simp only [List.cons_append, List.cons.injEq] at h
      obtain ⟨rfl, h⟩ := h
      have := ih t' (fun hm => h₁ (List.mem_cons_of_mem _ hm))
        (fun hm => h₃ (List.mem_cons_of_mem _ hm)) h
      exact ⟨by rw [this.1], this.2⟩

theorem getCellKey_injective (r c r' c' : Nat)
    (h : getCellKey r c = getCellKey r' c') : r = r' ∧ c = c' := by
  unfold getCellKey at h
  have hdata : (Nat.repr r).data ++ '-' :: (Nat.repr c).data =
      (Nat.repr r').data ++ '-' :: (Nat.repr c').data := by
    have : (toString r ++ "-" ++ toString c).data =
        (toString r' ++ "-" ++ toString c').data := by rw [h]
    simpa [String.data_append, toString] using this
  obtain ⟨h1, h2⟩ := append_dash_injective _ _ _ _
    (dash_not_mem_natRepr r) (dash_not_mem_natRepr r') hdata
  exact ⟨natRepr_injective r r' (String.ext h1),
    natRepr_injective c c' (String.ext h2)⟩

/-! ## Record lemmas -/

theorem recordGet_eq_none (m : List (String × PhaseCellState)) (k : String)
    (h : (m.any (fun e => e.1 = k)) = false) : recordGet m k = none := by
  induction m with
  | nil => rfl
  | cons e rest ih =>
    simp only [List.any_cons, Bool.or_eq_false_iff, decide_eq_false_iff_not] at h
    simp only [recordGet, if_neg h.1]
    exact ih h.2

theorem recordSet_cons_ne (e : String × PhaseCellState)
    (rest : List (String × PhaseCellState)) (k : String) (v : PhaseCellState)
    (hne : e.1 ≠ k) : recordSet (e :: rest) k v = e :: recordSet rest k v := by
  unfold recordSet
  simp only [List.any_cons, decide_eq_false hne, Bool.false_or]
  by_cases h : rest.any (fun e => decide (e.1 = k)) = true
  · rw [if_pos h, if_pos h]
    simp [if_neg hne]
  · rw [if_neg h, if_neg h]
    simp

theorem recordSet_cons_eq (e : String × PhaseCellState)
    (rest : List (String × PhaseCellState)) (v : PhaseCellState)
    (hrest : rest.all (fun x => x.1 ≠ e.1)) :
    recordSet (e :: rest) e.1 v = (e.1, v) :: rest := by
  unfold recordSet
  simp only [List.any_cons, decide_eq_true_eq]
  rw [if_pos (by simp)]
  simp only [List.map_cons, if_pos rfl]
  congr 1
  rw [List.all_eq_true] at hrest
  induction rest with
  | nil => rfl
  | cons x rest ih =>
    have hx : ¬ x.1 = e.1 := by simpa using hrest x (by simp)
    simp only [List.map_cons, if_neg hx]
    congr 1
    exact ih (fun y hy => hrest y (by simp [hy]))

theorem recordGet_cons (e : String × PhaseCellState)
    (rest : List (String × PhaseCellState)) (k : String) :
    recordGet (e :: rest) k =
      if e.1 = k then some e.2 else recordGet rest k := by
  obtain ⟨e1, e2⟩ := e
  rfl

theorem countActive_cons (e : String × PhaseCellState)
    (rest : List (String × PhaseCellState)) :
    countActive (e :: rest) =
      (if e.2 = PhaseCellState.active then 1 else 0) + countActive rest := by
  simp only [countActive, List.filter_cons]
  by_cases h : e.2 = PhaseCellState.active
  · simp [h, Nat.add_comm]
  · simp [h]

theorem recordGet_mem {m : List (String × PhaseCellState)} {k : String}
    {v : PhaseCellState} (h : recordGet m k = some v) : (k, v) ∈ m := by
  induction m with
  | nil => simp [recordGet] at h
  | cons e rest ih =>
    rw [recordGet_cons] at h
    by_cases he : e.1 = k
    · rw [if_pos he] at h
      obtain rfl : e.2 = v := by simpa using h
      have : (k, e.2) = e := by
        obtain ⟨e1, e2⟩ := e
        simp_all
      rw [this]
      exact List.mem_cons_self e rest
    · rw [if_neg he] at h
      exact List.mem_cons_of_mem _ (ih h)

theorem countActive_pos_of_get {m : List (String × PhaseCellState)}
    {k : String} (h : recordGet m k = some PhaseCellState.active) :
    1 ≤ countActive m := by
  have hm : (k, PhaseCellState.active) ∈ m := recordGet_mem h
  have : (k, PhaseCellState.active) ∈
      m.filter (fun e => decide (e.2 = PhaseCellState.active)) :=
    List.mem_filter.mpr ⟨hm, by simp⟩
  have := List.length_pos.mpr (List.ne_nil_of_mem this)
  simpa [countActive] using this

theorem active_key_unique {m : List (String × PhaseCellState)} {k k' : String}
    (hcount : countActive m = 1)
    (h : recordGet m k = some PhaseCellState.active)
    (h' : recordGet m k' = some PhaseCellState.active) : k' = k := by
  obtain ⟨x, hx⟩ := List.length_eq_one.mp hcount
  have hk : (k, PhaseCellState.active) ∈
      m.filter (fun e => decide (e.2 = PhaseCellState.active)) :=
    List.mem_filter.mpr ⟨recordGet_mem h, by simp⟩
  have hk' : (k', PhaseCellState.active) ∈
      m.filter (fun e => decide (e.2 = PhaseCellState.active)) :=
    List.mem_filter.mpr ⟨recordGet_mem h', by simp⟩
  rw [hx] at hk hk'
  simp only [List.mem_singleton] at hk hk'
  have hkk : (k, PhaseCellState.active) = (k', PhaseCellState.active) :=
    hk.trans hk'.symm
  exact (congrArg Prod.fst hkk).symm

theorem countActive_recordSet (m : List (String × PhaseCellState))
    (k : String) (v : PhaseCellState) (hnd : keysNodup m) :
    countActive (recordSet m k v) +
        (if recordGet m k = some PhaseCellState.active then 1 else 0) =
      countActive m + (if v = PhaseCellState.active then 1 else 0) := by
  induction m with
  | nil =>
    simp [recordSet, recordGet, countActive]
    by_cases hv : v = PhaseCellState.active <;> simp [hv]
  | cons e rest ih =>
    have hnd' : keysNodup rest := by
      simpa [keysNodup, List.nodup_cons] using (List.nodup_cons.mp hnd).2
    have hknot : e.1 ∉ rest.map Prod.fst := (List.nodup_cons.mp hnd).1
    by_cases he : e.1 = k
    · subst he
      have hall : rest.all (fun x => x.1 ≠ e.1) := by
        rw [List.all_eq_true]
        intro x hx
        simp only [decide_eq_true_eq]
        intro hxe
        exact hknot (hxe ▸ List.mem_map_of_mem Prod.fst hx)
      rw [recordSet_cons_eq e rest v hall, recordGet_cons, if_pos rfl]
      rw [countActive_cons, countActive_cons]
      by_cases hv : v = PhaseCellState.active <;>
        by_cases hev : e.2 = PhaseCellState.active <;>
          simp [hv, hev] <;> omega
    · rw [recordSet_cons_ne e rest k v he, recordGet_cons, if_neg he]
      rw [countActive_cons, countActive_cons]
      have := ih hnd'
      omega

theorem recordGet_map_upd_ne (m : List (String × PhaseCellState))
    (k k' : String) (v : PhaseCellState) (hne : k' ≠ k) :
    recordGet (m.map (fun e => if e.1 = k then (k, v) else e)) k' =
      recordGet m k' := by
  induction m with
  | nil => rfl
  | cons e rest ih =>
    obtain ⟨e1, e2⟩ := e
    simp only [List.map_cons]
    by_cases he : e1 = k
    · simp only [if_pos he]
      rw [recordGet_cons, recordGet_cons]
      simp only
      rw [if_neg (fun h : k = k' => hne h.symm),
        if_neg (fun h : e1 = k' => hne (he ▸ h).symm)]
      exact ih
    · simp only [if_neg he]
      rw [recordGet_cons, recordGet_cons]
      simp only
      by_cases hek : e1 = k'
      · rw [if_pos hek, if_pos hek]
      · rw [if_neg hek, if_neg hek]
        exact ih

theorem recordGet_map_upd_self (m : List (String × PhaseCellState))
    (k : String) (v : PhaseCellState)
    (h : (m.any (fun e => e.1 = k)) = true) :
    recordGet (m.map (fun e => if e.1 = k then (k, v) else e)) k = some v := by
  induction m with
  | nil => simp at h
  | cons e rest ih =>
    obtain ⟨e1, e2⟩ := e
    simp only [List.map_cons]
    by_cases he : e1 = k
    · simp only [if_pos he]
      rw [recordGet_cons]
      simp
    · simp only [if_neg he]
      rw [recordGet_cons]
      simp only
      rw [if_neg he]
      apply ih
      simpa [he] using h

theorem recordGet_append_self (m : List (String × PhaseCellState))
    (k : String) (v : PhaseCellState)
    (h : (m.any (fun e => e.1 = k)) = false) :
    recordGet (m ++ [(k, v)]) k = some v := by
  induction m with
  | nil => simp [recordGet]
  | cons e rest ih =>
    rw [List.any_cons, Bool.or_eq_false_iff] at h
    simp only [List.cons_append]
    rw [recordGet_cons, if_neg (by simpa using h.1)]
    exact ih h.2

theorem recordGet_append_ne (m : List (String × PhaseCellState))
    (k k' : String) (v : PhaseCellState) (hne : k' ≠ k) :
    recordGet (m ++ [(k, v)]) k' = recordGet m k' := by
  induction m with
  | nil =>
    simp only [List.nil_append]
    rw [recordGet_cons, if_neg (fun h : (k, v).1 = k' => hne h.symm)]
  | cons e rest ih =>
    simp only [List.cons_append]
    rw [recordGet_cons, recordGet_cons]
    by_cases hek : e.1 = k'
    · rw [if_pos hek, if_pos hek]
    · rw [if_neg hek, if_neg hek]
      exact ih

theorem recordGet_recordSet_self (m : List (String × PhaseCellState))
    (k : String) (v : PhaseCellState) :
    recordGet (recordSet m k v) k = some v := by
  unfold recordSet
  split
  · rename_i h
    exact recordGet_map_upd_self m k v h
  · rename_i h
    rw [Bool.not_eq_true] at h
    exact recordGet_append_self m k v h

theorem recordGet_recordSet_ne (m : List (String × PhaseCellState))
    (k k' : String) (v : PhaseCellState) (hne : k' ≠ k) :
    recordGet (recordSet m k v) k' = recordGet m k' := by
  unfold recordSet
  split
  · exact recordGet_map_upd_ne m k k' v hne
  · exact recordGet_append_ne m k k' v hne

/-! ## Keys and `ensureSingleActive` -/

theorem keys_map_upd (m : List (String × PhaseCellState)) (k : String)
    (v : PhaseCellState) :
    (m.map (fun e => if e.1 = k then (k, v) else e)).map Prod.fst =
      m.map Prod.fst := by
  rw [List.map_map]
  apply List.map_congr_left
  intro e _
  by_cases he : e.1 = k
  · simp [he]
  · simp [he]

theorem keysNodup_recordSet (m : List (String × PhaseCellState))
    (k : String) (v : PhaseCellState) (hnd : keysNodup m) :
    keysNodup (recordSet m k v) := by
  unfold recordSet
  split
  · unfold keysNodup
    rw [keys_map_upd]
    exact hnd
  · rename_i h
    rw [Bool.not_eq_true] at h
    unfold keysNodup
    rw [List.map_append]
    rw [List.nodup_append]
    refine ⟨hnd, by simp, ?_⟩
    intro x hx
    simp only [List.map_cons, List.map_nil, List.mem_singleton]
    intro hxk
    subst hxk
    obtain ⟨e, he, hek⟩ := List.mem_map.mp hx
    have : m.any (fun e => e.1 = x) = true :=
      List.any_eq_true.mpr ⟨e, he, by simp [hek]⟩
    rw [h] at this
    exact Bool.false_ne_true this

theorem any_key_map_upd (m : List (String × PhaseCellState))
    (k k' : String) (v : PhaseCellState) :
    ((m.map (fun e => if e.1 = k then (k, v) else e)).any
        (fun e => e.1 = k')) =
      (m.any (fun e => e.1 = k')) := by
  rw [List.any_map]
  congr 1
  funext e
  by_cases he : e.1 = k
  · simp [Function.comp, he]
  · simp [Function.comp, he]

theorem demote_foldl (ks m : List (String × PhaseCellState))
    (hks : ∀ x ∈ ks, (m.any (fun e => e.1 = x.1)) = true) :
    List.foldl (fun acc e => recordSet acc e.1 PhaseCellState.done) m ks =
      m.map (fun e =>
        if e.1 ∈ ks.map Prod.fst then (e.1, PhaseCellState.done) else e) := by
  induction ks generalizing m with
  | nil => simp
  | cons x kt ih =>
    rw [List.foldl_cons]
    have hset : recordSet m x.1 PhaseCellState.done =
        m.map (fun e => if e.1 = x.1 then (x.1, PhaseCellState.done) else e) := by
      unfold recordSet
      rw [if_pos (hks x (List.mem_cons_self x kt))]
    rw [hset, ih]
    · rw [List.map_map]
      apply List.map_congr_left
      intro e _
      by_cases he : e.1 = x.1
      · by_cases hkt : x.1 ∈ kt.map Prod.fst <;>
          simp [Function.comp, he, hkt, List.mem_cons]
      · by_cases hkt : e.1 ∈ kt.map Prod.fst <;>
          simp [Function.comp, he, hkt, List.mem_cons]
    · intro y hy
      rw [any_key_map_upd]
      exact hks y (List.mem_cons_of_mem x hy)

theorem countActive_demotedAll (m : List (String × PhaseCellState)) :
    countActive (m.map (fun e =>
      if e.2 = PhaseCellState.active then (e.1, PhaseCellState.done) else e)) = 0 := by
  induction m with
  | nil => rfl
  | cons e rest ih =>
    rw [List.map_cons, countActive_cons]
    by_cases he : e.2 = PhaseCellState.active
    · simp only [he, if_pos]
      simpa using ih
    · rw [if_neg he, if_neg he]
      simpa using ih

theorem keys_demotedAll (m : List (String × PhaseCellState)) :
    (m.map (fun e =>
      if e.2 = PhaseCellState.active then (e.1, PhaseCellState.done) else e)).map
        Prod.fst = m.map Prod.fst := by
  rw [List.map_map]
  apply List.map_congr_left
  intro e _
  by_cases he : e.2 = PhaseCellState.active
  · simp [he]
  · simp [he]

theorem entry_unique_of_keysNodup {m : List (String × PhaseCellState)}
    (hnd : keysNodup m) {e e' : String × PhaseCellState}
    (he : e ∈ m) (he' : e' ∈ m) (hk : e.1 = e'.1) : e = e' :=
  List.inj_on_of_nodup_map hnd he he' hk

theorem demote_values_eq (s : State) (hnd : keysNodup s.values) :
    List.foldl (fun m e => recordSet m e.1 PhaseCellState.done) s.values
        (s.values.filter (fun e => decide (e.2 = PhaseCellState.active))) =
      s.values.map (fun e =>
        if e.2 = PhaseCellState.active then (e.1, PhaseCellState.done) else e) := by
  rw [demote_foldl]
  · apply List.map_congr_left
    intro e he
    have hiff : (e.1 ∈ (s.values.filter
        (fun e => decide (e.2 = PhaseCellState.active))).map Prod.fst) ↔
        e.2 = PhaseCellState.active := by
      constructor
      · intro hmem
        obtain ⟨x, hx, hxk⟩ := List.mem_map.mp hmem
        have hxm : x ∈ s.values := (List.mem_filter.mp hx).1
        have hxa : x.2 = PhaseCellState.active := by
          simpa using (List.mem_filter.mp hx).2
        have : e = x := entry_unique_of_keysNodup hnd he hxm hxk.symm
        rw [this]
        exact hxa
      · intro ha
        exact List.mem_map.mpr ⟨e, List.mem_filter.mpr ⟨he, by simp [ha]⟩, rfl⟩
    by_cases ha : e.2 = PhaseCellState.active
    · rw [if_pos (hiff.mpr ha), if_pos ha]
    · rw [if_neg (fun hm => ha (hiff.mp hm)), if_neg ha]
  · intro x hx
    exact List.any_eq_true.mpr ⟨x, (List.mem_filter.mp hx).1, by simp⟩

theorem ensureSingleActive_of_count_one (s : State)
    (h : countActive s.values = 1) : ensureSingleActive s = s := by
  unfold countActive at h
  simp only [ensureSingleActive]
  rw [if_pos h]

theorem ensureSingleActive_participants (s : State) :
    (ensureSingleActive s).participants = s.participants := by
  simp only [ensureSingleActive]
  split
  · rfl
  · split <;> rfl

theorem ensureSingleActive_phases (s : State) :
    (ensureSingleActive s).phases = s.phases := by
  simp only [ensureSingleActive]
  split
  · rfl
  · split <;> rfl

theorem countActive_ensureSingleActive (s : State) (hnd : keysNodup s.values) :
    countActive (ensureSingleActive s).values ≤ 1 ∧
    keysNodup (ensureSingleActive s).values ∧
    (s.participants ≠ [] → s.phases ≠ [] →
      countActive (ensureSingleActive s).values = 1) := by
  by_cases h1 : countActive s.values = 1
  · rw [ensureSingleActive_of_count_one s h1]
    exact ⟨le_of_eq h1, hnd, fun _ _ => h1⟩
  · have h1f : ¬ (s.values.filter
        (fun e => decide (e.2 = PhaseCellState.active))).length = 1 := by
      unfold countActive at h1
      exact h1
    have hvals : (ensureSingleActive s).values =
        if s.participants.length > 0 ∧ s.phases.length > 0 ∧
            (s.values.filter
              (fun e => decide (e.2 = PhaseCellState.active))).length ≠ 1 then
          recordSet (s.values.map (fun e =>
              if e.2 = PhaseCellState.active then (e.1, PhaseCellState.done)
              else e)) (getCellKey 0 0) PhaseCellState.active
        else
          s.values.map (fun e =>
            if e.2 = PhaseCellState.active then (e.1, PhaseCellState.done)
            else e) := by
      simp only [ensureSingleActive]
      rw [if_neg h1f, demote_values_eq s hnd]
    have hc0 : countActive (s.values.map (fun e =>
        if e.2 = PhaseCellState.active then (e.1, PhaseCellState.done)
        else e)) = 0 := countActive_demotedAll s.values
    have hnd0 : keysNodup (s.values.map (fun e =>
        if e.2 = PhaseCellState.active then (e.1, PhaseCellState.done)
        else e)) := by
      unfold keysNodup
      rw [keys_demotedAll]
      exact hnd
    rw [hvals]
    split
    · rename_i hcond
      have hget : recordGet (s.values.map (fun e =>
          if e.2 = PhaseCellState.active then (e.1, PhaseCellState.done)
          else e)) (getCellKey 0 0) ≠ some PhaseCellState.active := by
        intro hg
        have := countActive_pos_of_get hg
        omega
      have hmaster := countActive_recordSet (s.values.map (fun e =>
          if e.2 = PhaseCellState.active then (e.1, PhaseCellState.done)
          else e)) (getCellKey 0 0) PhaseCellState.active hnd0
      rw [if_neg hget, if_pos rfl] at hmaster
      refine ⟨by omega, keysNodup_recordSet _ _ _ hnd0, fun _ _ => by omega⟩
    · rename_i hcond
      refine ⟨by omega, hnd0, ?_⟩
      intro hp hph
      exfalso
      exact hcond ⟨List.length_pos.mpr hp, List.length_pos.mpr hph, h1f⟩

/-! ## Transition lemmas and the reachable invariant -/

theorem get_eq_some_active_of_cellAt {s : State} {r c : Nat}
    (hact : cellAt s r c = PhaseCellState.active) :
    recordGet s.values (getCellKey r c) = some PhaseCellState.active := by
  unfold cellAt at hact
  cases hg : recordGet s.values (getCellKey r c) with
  | none => rw [hg] at hact; simp at hact
  | some v => rw [hg] at hact; simpa using hact

theorem transitionCell_not_active {s : State} {r c : Nat}
    (v : PhaseCellState) (h : cellAt s r c ≠ PhaseCellState.active) :
    transitionCell s r c v = none := by
  simp only [transitionCell]
  rw [if_pos h]

theorem transitionCell_active_none {s : State} {r c : Nat}
    (v : PhaseCellState) (hact : cellAt s r c = PhaseCellState.active)
    (hf : findNextActive s r c = none) :
    transitionCell s r c v =
      some { s with values := recordSet s.values (getCellKey r c) v } := by
  simp only [transitionCell]
  rw [if_neg (not_not_intro hact), hf]

theorem transitionCell_active_some {s : State} {r c : Nat} {nc : NextCell}
    (v : PhaseCellState) (hact : cellAt s r c = PhaseCellState.active)
    (hf : findNextActive s r c = some nc) :
    transitionCell s r c v =
      some { s with
             phases :=
               if nc.addPhase then
                 s.phases ++ ["Phase " ++ toString (s.phases.length + 1)]
               else s.phases,
             values := recordSet (recordSet s.values (getCellKey r c) v)
               (getCellKey nc.row nc.col) PhaseCellState.active } := by
  simp only [transitionCell]
  rw [if_neg (not_not_intro hact), hf]

theorem transition_inv {s : State} {r c : Nat} {v : PhaseCellState}
    (hv : v ≠ PhaseCellState.active) (hnd : keysNodup s.values)
    (hcount : countActive s.values ≤ 1) :
    ∀ s', transitionCell s r c v = some s' →
      countActive s'.values ≤ 1 ∧ keysNodup s'.values := by
  intro s' hs'
  by_cases hact : cellAt s r c = PhaseCellState.active
  · have hget := get_eq_some_active_of_cellAt hact
    have h1 : countActive s.values = 1 :=
      le_antisymm hcount (countActive_pos_of_get hget)
    have hm1count : countActive (recordSet s.values (getCellKey r c) v) = 0 := by
      have := countActive_recordSet s.values (getCellKey r c) v hnd
      rw [if_pos hget, if_neg hv] at this
      omega
    have hm1nd : keysNodup (recordSet s.values (getCellKey r c) v) :=
      keysNodup_recordSet _ _ _ hnd
    cases hf : findNextActive s r c with
    | none =>
      rw [transitionCell_active_none v hact hf] at hs'
      obtain rfl : _ = s' := congrArg (Option.getD · s) hs'
      simp only [Option.getD_some]
      exact ⟨by omega, hm1nd⟩
    | some nc =>
      rw [transitionCell_active_some v hact hf] at hs'
      obtain rfl : _ = s' := congrArg (Option.getD · s) hs'
      simp only [Option.getD_some]
      have hget2 : recordGet (recordSet s.values (getCellKey r c) v)
          (getCellKey nc.row nc.col) ≠ some PhaseCellState.active := by
        intro hg
        have := countActive_pos_of_get hg
        omega
      have := countActive_recordSet (recordSet s.values (getCellKey r c) v)
        (getCellKey nc.row nc.col) PhaseCellState.active hm1nd
      rw [if_neg hget2, if_pos rfl] at this
      exact ⟨by omega, keysNodup_recordSet _ _ _ hm1nd⟩
  · rw [transitionCell_not_active v hact] at hs'
    exact absurd hs' (by simp)

theorem keys_migrateValues (raw : List (String × Option String)) :
    (migrateValues raw).map Prod.fst = raw.map Prod.fst := by
  unfold migrateValues
  rw [List.map_map]
  rfl

theorem markDone_cell_value_ne_active (s : State) (r c : Nat) :
    (if isCharacterDeadInPreviousPhase s r c then PhaseCellState.dead
      else PhaseCellState.done) ≠ PhaseCellState.active := by
  split <;> simp

theorem reachable_inv {s : State} (h : Reachable s) :
    countActive s.values ≤ 1 ∧ keysNodup s.values := by
  induction h with
  | load read hwf =>
    cases read with
    | noWindow => exact ⟨by decide, by simp [loadStateFromStorage, freshState, keysNodup]⟩
    | absent => exact ⟨by decide, by simp [loadStateFromStorage, freshState, keysNodup]⟩
    | corrupt => exact ⟨by decide, by simp [loadStateFromStorage, freshState, keysNodup]⟩
    | ok d =>
      have hnd : keysNodup (migrateValues (d.values.getD [])) := by
        unfold keysNodup
        rw [keys_migrateValues]
        exact hwf
      have := countActive_ensureSingleActive
        { participants := d.participants.getD [],
          phases := match d.phases with
            | none => ["Phase 1"]
            | some ps => if ps.length = 0 then ["Phase 1"] else ps,
          values := migrateValues (d.values.getD []) } hnd
      exact ⟨this.1, this.2.1⟩
  | @addParticipant s1 hs ih =>
    have := countActive_ensureSingleActive
      { s1 with participants := s1.participants ++ [""] } ih.2
    exact ⟨this.1, this.2.1⟩
  | setParticipantName hs rowIndex name ih => exact ih
  | @markDone s1 hs rowIndex colIndex ih =>
    unfold markDone markDoneAct
    cases ht : transitionCell s1 rowIndex colIndex
        (if isCharacterDeadInPreviousPhase s1 rowIndex colIndex then
          PhaseCellState.dead else PhaseCellState.done) with
    | none => simpa [ht] using ih
    | some s' =>
      simp only [Option.getD_some]
      exact transition_inv (markDone_cell_value_ne_active s1 rowIndex colIndex)
        ih.2 ih.1 s' ht
  | @markDead s1 hs rowIndex colIndex ih =>
    unfold markDead markDeadAct
    cases ht : transitionCell s1 rowIndex colIndex PhaseCellState.dead with
    | none => simpa [ht] using ih
    | some s' =>
      simp only [Option.getD_some]
      exact transition_inv (by simp) ih.2 ih.1 s' ht
  | @revive s1 hs rowIndex colIndex ih =>
    unfold revive reviveAct
    cases ht : transitionCell s1 rowIndex colIndex PhaseCellState.revived with
    | none => simpa [ht] using ih
    | some s' =>
      simp only [Option.getD_some]
      exact transition_inv (by simp) ih.2 ih.1 s' ht
  | reset hs ih =>
    exact ⟨by simp [doReset, countActive], by simp [doReset, keysNodup]⟩

theorem load_phases_ne_nil (read : StorageRead) :
    (loadStateFromStorage read).phases ≠ [] := by
  cases read with
  | noWindow => simp [loadStateFromStorage, freshState]
  | absent => simp [loadStateFromStorage, freshState]
  | corrupt => simp [loadStateFromStorage, freshState]
  | ok d =>
    simp only [loadStateFromStorage]
    rw [ensureSingleActive_phases]
    cases hp : d.phases with
    | none => simp
    | some ps =>
      simp only
      split
      · simp
      · rename_i hlen
        intro hnil
        rw [hnil] at hlen
        simp at hlen

/-! ## Claim C1: the Single-Active invariant -/

/-- C1 counterexample: the claim asserts that immediately after load-time
repair the number of `"active"` entries is exactly 0 when the grid is empty.
Loading stored data with no participants but a single stored `"active"`
value falsifies it: `ensureSingleActive` returns a one-entry-active state
unchanged, so the loaded state has an empty grid and one `"active"` entry. -/
theorem single_active_empty_grid_counterexample :
    StorageRead.wf (.ok ⟨some [], none, some [(getCellKey 0 0, some "active")]⟩) ∧
    (loadStateFromStorage
      (.ok ⟨some [], none, some [(getCellKey 0 0, some "active")]⟩)).participants = [] ∧
    countActive (loadStateFromStorage
      (.ok ⟨some [], none, some [(getCellKey 0 0, some "active")]⟩)).values = 1 := by
  refine ⟨?_, ?_, ?_⟩
  · simp [StorageRead.wf]
  · decide
  · decide

/-- C1 (amended): in every session state reachable from a load (after any
sequence of `addParticipant`, `setParticipantName`, `markDone`, `markDead`,
`revive`, `reset`), at most one entry of the values map is `"active"`;
immediately after load-time repair the number of `"active"` entries is
exactly 1 when at least one participant and one phase exist, and at most 1
(not necessarily 0) when the grid is empty. -/
theorem single_active_invariant :
    (∀ s : State, Reachable s → countActive s.values ≤ 1) ∧
    (∀ read : StorageRead, read.wf →
      countActive (loadStateFromStorage read).values ≤ 1 ∧
      ((loadStateFromStorage read).participants ≠ [] →
        (loadStateFromStorage read).phases ≠ [] →
        countActive (loadStateFromStorage read).values = 1)) := by
  constructor
  · intro s h
    exact (reachable_inv h).1
  · intro read hwf
    cases read with
    | noWindow =>
      exact ⟨by simp [loadStateFromStorage, freshState, countActive],
        fun hp _ => absurd rfl hp⟩
    | absent =>
      exact ⟨by simp [loadStateFromStorage, freshState, countActive],
        fun hp _ => absurd rfl hp⟩
    | corrupt =>
      exact ⟨by simp [loadStateFromStorage, freshState, countActive],
        fun hp _ => absurd rfl hp⟩
    | ok d =>
      have hnd : keysNodup (migrateValues (d.values.getD [])) := by
        unfold keysNodup
        rw [keys_migrateValues]
        exact hwf
      have heq : loadStateFromStorage (StorageRead.ok d) =
          ensureSingleActive
            { participants := d.participants.getD [],
              phases := match d.phases with
                | none => ["Phase 1"]
                | some ps => if ps.length = 0 then ["Phase 1"] else ps,
              values := migrateValues (d.values.getD []) } := rfl
      have hlem := countActive_ensureSingleActive
        { participants := d.participants.getD [],
          phases := match d.phases with
            | none => ["Phase 1"]
            | some ps => if ps.length = 0 then ["Phase 1"] else ps,
          values := migrateValues (d.values.getD []) } hnd
      rw [heq]
      refine ⟨hlem.1, fun hp hph => ?_⟩
      rw [ensureSingleActive_participants] at hp
      rw [ensureSingleActive_phases] at hph
      exact hlem.2.2 hp hph

/-- Witness for C1 at a concrete load. -/
theorem single_active_invariant_witness :
    countActive (loadStateFromStorage
      (.ok ⟨some ["A"], some ["Phase 1"], some []⟩)).values ≤ 1 ∧
    countActive (loadStateFromStorage
      (.ok ⟨some ["A"], some ["Phase 1"], some []⟩)).values = 1 :=
  ⟨single_active_invariant.1 _
      (Reachable.load (.ok ⟨some ["A"], some ["Phase 1"], some []⟩)
        (by simp [StorageRead.wf])),
   (single_active_invariant.2 (.ok ⟨some ["A"], some ["Phase 1"], some []⟩)
      (by simp [StorageRead.wf])).2 (by decide) (by decide)⟩

/-! ## Claim C4: no-op atomicity on non-Active cells -/

/-- C4: for every state and indices `(row, col)` whose cell is not
`"active"` (including out-of-grid indices, where the absent value defaults
to `"waiting"`), `markDone`, `markDead` and `revive` perform no storage
write (`none` action) and leave the session state unchanged. -/
theorem noop_on_non_active (s : State) (row col : Nat)
    (h : cellAt s row col ≠ PhaseCellState.active) :
    markDoneAct s row col = none ∧ markDeadAct s row col = none ∧
    reviveAct s row col = none ∧
    markDone s row col = s ∧ markDead s row col = s ∧
    revive s row col = s := by
  have h1 : markDoneAct s row col = none := transitionCell_not_active _ h
  have h2 : markDeadAct s row col = none := transitionCell_not_active _ h
  have h3 : reviveAct s row col = none := transitionCell_not_active _ h
  refine ⟨h1, h2, h3, ?_, ?_, ?_⟩
  · unfold markDone
    rw [h1]
    rfl
  · unfold markDead
    rw [h2]
    rfl
  · unfold revive
    rw [h3]
    rfl

/-- Witness for C4: on the fresh session, cell `(0, 0)` is waiting and the
three operations are no-ops. -/
theorem noop_on_non_active_witness :
    markDoneAct freshState 0 0 = none ∧ markDone freshState 0 0 = freshState :=
  ⟨(noop_on_non_active freshState 0 0 (by decide)).1,
   (noop_on_non_active freshState 0 0 (by decide)).2.2.2.1⟩

/-! ## Claim C5: storage round trip -/

/-- C5 counterexample: the empty session (no phases) does not round trip:
`loadStateFromStorage` replaces an empty phases list with `["Phase 1"]`. -/
theorem save_load_roundtrip_counterexample :
    loadStateFromStorage (.ok (saveStateToStorage
      { participants := [], phases := [], values := [] })) ≠
      { participants := [], phases := [], values := [] } := by
  decide

theorem parse_asString (v : PhaseCellState) :
    parsePhaseCellState v.asString = some v := by
  cases v <;> rfl

theorem migrate_save (vals : List (String × PhaseCellState)) :
    migrateValues (vals.map (fun e => (e.1, some e.2.asString))) = vals := by
  unfold migrateValues
  rw [List.map_map]
  conv_rhs => rw [← List.map_id vals]
  apply List.map_congr_left
  intro e _
  simp [Function.comp, parse_asString]

/-- C5 (amended): a session state with a non-empty phases list and exactly
one `"active"` entry in its values map round trips: saving then loading
(with uncorrupted storage) yields an identical state. -/
theorem save_load_roundtrip (s : State) (hph : s.phases ≠ [])
    (hone : countActive s.values = 1) :
    loadStateFromStorage (.ok (saveStateToStorage s)) = s := by
  have heq : loadStateFromStorage (.ok (saveStateToStorage s)) =
      ensureSingleActive
        { participants := s.participants,
          phases := if s.phases.length = 0 then ["Phase 1"] else s.phases,
          values := migrateValues
            (s.values.map (fun e => (e.1, some e.2.asString))) } := rfl
  rw [heq, migrate_save]
  rw [if_neg (fun h => hph (List.length_eq_zero.mp h))]
  show ensureSingleActive s = s
  exact ensureSingleActive_of_count_one s hone

/-- Witness for C5 at a concrete one-active session. -/
theorem save_load_roundtrip_witness :
    loadStateFromStorage (.ok (saveStateToStorage walkthroughStart)) =
      walkthroughStart :=
  save_load_roundtrip walkthroughStart (by decide) (by decide)

/-! ## Claim C7: the two-participant walkthrough -/

/-- C7: from participants `["A","B"]`, phases `["Phase 1"]`, `A` active at
`(0,0)`: `markDone(0,0)` sets `(0,0)` to `"done"` and activates `(1,0)`;
`markDone(1,0)` then sets `(1,0)` to `"done"`, appends `"Phase 2"` and
activates `(0,1)`. -/
theorem two_participant_walkthrough :
    cellAt (markDone walkthroughStart 0 0) 0 0 = PhaseCellState.done ∧
    cellAt (markDone walkthroughStart 0 0) 1 0 = PhaseCellState.active ∧
    (markDone walkthroughStart 0 0).phases = ["Phase 1"] ∧
    cellAt (markDone (markDone walkthroughStart 0 0) 1 0) 1 0 =
      PhaseCellState.done ∧
    (markDone (markDone walkthroughStart 0 0) 1 0).phases =
      ["Phase 1", "Phase 2"] ∧
    cellAt (markDone (markDone walkthroughStart 0 0) 1 0) 0 1 =
      PhaseCellState.active := by
  decide

/-! ## Claim C10: out-of-grid Active keys -/

/-- C10: `ensureSingleActive` counts `"active"` entries over every key of
the values map regardless of grid bounds, so a state whose single
`"active"` entry sits at an out-of-grid key is returned unchanged, and no
in-grid cell is active in it (hence load-time repair promotes none). -/
theorem ensureSingleActive_out_of_grid (s : State) (r0 c0 : Nat)
    (hfilter : s.values.filter (fun e => decide (e.2 = PhaseCellState.active)) =
      [(getCellKey r0 c0, PhaseCellState.active)])
    (hout : s.participants.length ≤ r0 ∨ s.phases.length ≤ c0) :
    ensureSingleActive s = s ∧
    ∀ r < s.participants.length, ∀ c < s.phases.length,
      cellAt s r c ≠ PhaseCellState.active := by
  constructor
  · apply ensureSingleActive_of_count_one
    unfold countActive
    rw [hfilter]
    rfl
  · intro r hr c hc hact
    have hget := get_eq_some_active_of_cellAt hact
    have hmem : (getCellKey r c, PhaseCellState.active) ∈
        s.values.filter (fun e => decide (e.2 = PhaseCellState.active)) :=
      List.mem_filter.mpr ⟨recordGet_mem hget, by simp⟩
    rw [hfilter] at hmem
    simp only [List.mem_singleton, Prod.mk.injEq] at hmem
    obtain ⟨hrr, hcc⟩ := getCellKey_injective r c r0 c0 hmem.1
    omega

/-- Witness for C10: a 1×1 grid with its single `"active"` entry at key
`5-0`. -/
theorem ensureSingleActive_out_of_grid_witness :
    ensureSingleActive
      { participants := ["A"], phases := ["P1"],
        values := [(getCellKey 5 0, PhaseCellState.active)] } =
      { participants := ["A"], phases := ["P1"],
        values := [(getCellKey 5 0, PhaseCellState.active)] } :=
  (ensureSingleActive_out_of_grid _ 5 0 (by decide) (by decide)).1

/-! ## The scan loop: fuel monotonicity, termination, scan order -/

theorem loop_mono (s : State) (rows cols : Nat) :
    ∀ (n : Nat) (r c : Nat) (v : NextCell),
      findNextActiveLoop s rows cols n r c = some v →
      ∀ m, n ≤ m → findNextActiveLoop s rows cols m r c = some v := by
  intro n
  induction n with
  | zero => intro r c v h; simp [findNextActiveLoop] at h
  | succ n ih =>
    intro r c v h m hm
    obtain ⟨m', rfl⟩ : ∃ m', m = m' + 1 := ⟨m - 1, by omega⟩
    have hm' : n ≤ m' := by omega
    simp only [findNextActiveLoop] at h ⊢
    by_cases h1 : r + 1 ≥ rows
    · rw [if_pos h1] at h ⊢
      by_cases h2 : c + 1 ≥ cols
      · rw [if_pos h2] at h ⊢
        exact h
      · rw [if_neg h2] at h ⊢
        by_cases h3 : cellAt s 0 (c + 1) ≠ PhaseCellState.dead
        · rw [if_pos h3] at h ⊢
          exact h
        · rw [if_neg h3] at h ⊢
          exact ih 0 (c + 1) v h m' hm'
    · rw [if_neg h1] at h ⊢
      by_cases h3 : cellAt s (r + 1) c ≠ PhaseCellState.dead
      · rw [if_pos h3] at h ⊢
        exact h
      · rw [if_neg h3] at h ⊢
        exact ih (r + 1) c v h m' hm'

theorem loop_measure_some (s : State) (rows cols : Nat) :
    ∀ (n : Nat) (r c : Nat), scanMeasure rows cols r c ≤ n →
      ∃ v, findNextActiveLoop s rows cols n r c = some v := by
  intro n
  induction n with
  | zero =>
    intro r c h
    exfalso
    unfold scanMeasure at h
    omega
  | succ n ih =>
    intro r c h
    simp only [findNextActiveLoop]
    by_cases h1 : r + 1 ≥ rows
    · rw [if_pos h1]
      by_cases h2 : c + 1 ≥ cols
      · rw [if_pos h2]
        exact ⟨_, rfl⟩
      · rw [if_neg h2]
        by_cases h3 : cellAt s 0 (c + 1) ≠ PhaseCellState.dead
        · rw [if_pos h3]
          exact ⟨_, rfl⟩
        · rw [if_neg h3]
          apply ih
          have hA : cols - c = (cols - (c + 1)) + 1 := by omega
          have hexp : (cols - c) * (rows + 1) =
              (cols - (c + 1)) * (rows + 1) + (rows + 1) := by
            rw [hA, Nat.add_mul, Nat.one_mul]
          unfold scanMeasure at h ⊢
          omega
    · rw [if_neg h1]
      by_cases h3 : cellAt s (r + 1) c ≠ PhaseCellState.dead
      · rw [if_pos h3]
        exact ⟨_, rfl⟩
      · rw [if_neg h3]
        apply ih
        unfold scanMeasure at h ⊢
        omega

theorem scanMeasure_le_fuel (rows cols r c : Nat) :
    scanMeasure rows cols r c ≤ findNextFuel rows cols := by
  unfold scanMeasure findNextFuel
  have h1 : (cols - c) * (rows + 1) ≤ cols * (rows + 1) :=
    Nat.mul_le_mul_right _ (Nat.sub_le _ _)
  have h2 : cols * (rows + 1) = rows * cols + cols := by ring
  omega

theorem scanList_step (rows cols r c : Nat) (hr : r + 1 < rows) :
    scanList rows cols r c =
      (r + 1, c) :: scanList rows cols (r + 1) c := by
  unfold scanList
  have hl : rows - (r + 1) = (rows - (r + 2)) + 1 := by omega
  rw [hl, List.range'_succ, List.map_cons]
  rfl

theorem scanList_wrap_end (rows cols r c : Nat) (hr : r + 1 ≥ rows)
    (hc : c + 1 ≥ cols) : scanList rows cols r c = [] := by
  unfold scanList
  have h1 : rows - (r + 1) = 0 := by omega
  have h2 : cols - (c + 1) = 0 := by omega
  rw [h1, h2]
  rfl

theorem scanList_wrap (rows cols r c : Nat) (hrows : 0 < rows)
    (hr : r + 1 ≥ rows) (hc : c + 1 < cols) :
    scanList rows cols r c = (0, c + 1) :: scanList rows cols 0 (c + 1) := by
  unfold scanList
  have h1 : rows - (r + 1) = 0 := by omega
  have h2 : cols - (c + 1) = (cols - (c + 1 + 1)) + 1 := by omega
  have h3 : List.range rows = 0 :: List.range' 1 (rows - 1) := by
    rw [List.range_eq_range']
    obtain ⟨k, hk⟩ : ∃ k, rows = k + 1 := ⟨rows - 1, by omega⟩
    subst hk
    rw [List.range'_succ]
    simp
  rw [h1, h2, List.range'_succ, List.flatMap_cons, h3]
  simp [List.range'_zero]

theorem loop_scan_eq (s : State) (rows cols : Nat) (hrows : 0 < rows) :
    ∀ (n : Nat) (r c : Nat), scanMeasure rows cols r c ≤ n → c < cols →
      findNextActiveLoop s rows cols n r c =
        some (scanFirst s cols (scanList rows cols r c)) := by
  intro n
  induction n with
  | zero =>
    intro r c h _
    exfalso
    unfold scanMeasure at h
    omega
  | succ n ih =>
    intro r c h hc
    simp only [findNextActiveLoop]
    by_cases h1 : r + 1 ≥ rows
    · rw [if_pos h1]
      by_cases h2 : c + 1 ≥ cols
      · rw [if_pos h2, scanList_wrap_end rows cols r c h1 h2]
        rfl
      · push_neg at h2
        rw [if_neg (by omega), scanList_wrap rows cols r c hrows h1 h2]
        simp only [scanFirst]
        by_cases h3 : cellAt s 0 (c + 1) ≠ PhaseCellState.dead
        · rw [if_pos h3, if_pos h3]
        · rw [if_neg h3, if_neg h3]
          apply ih
          · have hA : cols - c = (cols - (c + 1)) + 1 := by omega
            have hexp : (cols - c) * (rows + 1) =
                (cols - (c + 1)) * (rows + 1) + (rows + 1) := by
              rw [hA, Nat.add_mul, Nat.one_mul]
            unfold scanMeasure at h ⊢
            omega
          · omega
    · push_neg at h1
      rw [if_neg (by omega), scanList_step rows cols r c h1]
      simp only [scanFirst]
      by_cases h3 : cellAt s (r + 1) c ≠ PhaseCellState.dead
      · rw [if_pos h3, if_pos h3]
      · rw [if_neg h3, if_neg h3]
        apply ih
        · unfold scanMeasure at h ⊢
          omega
        · exact hc

theorem scanFirst_all_dead (s : State) (cols : Nat) :
    ∀ l : List (Nat × Nat), (∀ p ∈ l, cellAt s p.1 p.2 = PhaseCellState.dead) →
      scanFirst s cols l = ⟨0, cols, true⟩ := by
  intro l
  induction l with
  | nil => intro _; rfl
  | cons p rest ih =>
    intro hall
    simp only [scanFirst]
    rw [if_neg (not_not_intro (hall p (List.mem_cons_self p rest)))]
    exact ih (fun q hq => hall q (List.mem_cons_of_mem p hq))

theorem scanFirst_no_dead (s : State) (cols : Nat) :
    ∀ (l : List (Nat × Nat)) (nc : NextCell), scanFirst s cols l = nc →
      nc.addPhase = false → cellAt s nc.row nc.col ≠ PhaseCellState.dead := by
  intro l
  induction l with
  | nil =>
    intro nc h hap
    rw [← h] at hap
    simp [scanFirst] at hap
  | cons p rest ih =>
    intro nc h hap
    simp only [scanFirst] at h
    by_cases h3 : cellAt s p.1 p.2 ≠ PhaseCellState.dead
    · rw [if_pos h3] at h
      rw [← h]
      exact h3
    · rw [if_neg h3] at h
      exact ih nc h hap

theorem loop_result_pos (s : State) (rows cols : Nat) :
    ∀ (n : Nat) (r c : Nat) (nc : NextCell),
      findNextActiveLoop s rows cols n r c = some nc → c < cols →
      c < nc.col ∨ (nc.col = c ∧ r < nc.row) := by
  intro n
  induction n with
  | zero => intro r c nc h _; simp [findNextActiveLoop] at h
  | succ n ih =>
    intro r c nc h hc
    simp only [findNextActiveLoop] at h
    by_cases h1 : r + 1 ≥ rows
    · rw [if_pos h1] at h
      by_cases h2 : c + 1 ≥ cols
      · rw [if_pos h2] at h
        obtain rfl : (⟨0, cols, true⟩ : NextCell) = nc := by simpa using h
        exact Or.inl hc
      · rw [if_neg h2] at h
        by_cases h3 : cellAt s 0 (c + 1) ≠ PhaseCellState.dead
        · rw [if_pos h3] at h
          obtain rfl : (⟨0, c + 1, false⟩ : NextCell) = nc := by simpa using h
          exact Or.inl (Nat.lt_succ_self c)
        · rw [if_neg h3] at h
          rcases ih 0 (c + 1) nc h (by omega) with hlt | ⟨heq, _⟩
          · exact Or.inl (by omega)
          · exact Or.inl (by omega)
    · rw [if_neg h1] at h
      by_cases h3 : cellAt s (r + 1) c ≠ PhaseCellState.dead
      · rw [if_pos h3] at h
        obtain rfl : (⟨r + 1, c, false⟩ : NextCell) = nc := by simpa using h
        exact Or.inr ⟨rfl, Nat.lt_succ_self r⟩
      · rw [if_neg h3] at h
        rcases ih (r + 1) c nc h hc with hlt | ⟨heq, hrow⟩
        · exact Or.inl hlt
        · exact Or.inr ⟨heq, by omega⟩

theorem findNextActive_ne_start {s : State} {fromRow fromCol : Nat}
    {nc : NextCell} (hc : fromCol < s.phases.length)
    (h : findNextActive s fromRow fromCol = some nc) :
    ¬(nc.row = fromRow ∧ nc.col = fromCol) := by
  simp only [findNextActive] at h
  by_cases hg : s.participants.length = 0 ∨ s.phases.length = 0
  · rw [if_pos hg] at h
    exact absurd h (by simp)
  · rw [if_neg hg] at h
    rcases loop_result_pos s s.participants.length s.phases.length
        (findNextFuel s.participants.length s.phases.length)
        fromRow fromCol nc h hc with hlt | ⟨heq, hrow⟩
    · rintro ⟨_, rfl⟩
      omega
    · rintro ⟨rfl, _⟩
      omega

/-! ## Claim C2: the advancement algorithm -/

/-- C2: for every state with at least one participant and one phase and
every in-grid start `(fromRow, fromCol)`, `findNextActive` returns the first
position strictly after the start in scan order (increment row; on reaching
the row count, reset row to 0 and increment column) whose cell is not
`"dead"`; when every scanned cell is dead it returns the append-signal
`(0, cols, addPhase)`; and a returned non-append cell is never dead. -/
theorem findNextActive_spec (s : State) (fromRow fromCol : Nat)
    (hr : fromRow < s.participants.length)
    (hc : fromCol < s.phases.length) :
    findNextActive s fromRow fromCol =
      some (scanFirst s s.phases.length
        (scanList s.participants.length s.phases.length fromRow fromCol)) ∧
    ((∀ p ∈ scanList s.participants.length s.phases.length fromRow fromCol,
        cellAt s p.1 p.2 = PhaseCellState.dead) →
      findNextActive s fromRow fromCol =
        some ⟨0, s.phases.length, true⟩) ∧
    (∀ nc, findNextActive s fromRow fromCol = some nc →
      nc.addPhase = false → cellAt s nc.row nc.col ≠ PhaseCellState.dead) := by
  have hguard : ¬(s.participants.length = 0 ∨ s.phases.length = 0) := by
    omega
  have heq : findNextActive s fromRow fromCol =
      findNextActiveLoop s s.participants.length s.phases.length
        (findNextFuel s.participants.length s.phases.length)
        fromRow fromCol := by
    simp only [findNextActive]
    rw [if_neg hguard]
  have h1 : findNextActive s fromRow fromCol =
      some (scanFirst s s.phases.length
        (scanList s.participants.length s.phases.length fromRow fromCol)) := by
    rw [heq]
    exact loop_scan_eq s s.participants.length s.phases.length (by omega) _
      fromRow fromCol (scanMeasure_le_fuel _ _ _ _) hc
  refine ⟨h1, ?_, ?_⟩
  · intro hall
    rw [h1, scanFirst_all_dead s s.phases.length _ hall]
  · intro nc hnc hap
    rw [h1] at hnc
    exact scanFirst_no_dead s s.phases.length _ nc (Option.some.inj hnc) hap

/-- Witness for C2 on the walkthrough state. -/
theorem findNextActive_spec_witness :
    findNextActive walkthroughStart 0 0 =
      some (scanFirst walkthroughStart walkthroughStart.phases.length
        (scanList walkthroughStart.participants.length
          walkthroughStart.phases.length 0 0)) :=
  (findNextActive_spec walkthroughStart 0 0 (by decide) (by decide)).1

/-! ## Claim C8: termination of the scan loop -/

/-- C8: the unbounded scan loop of `findNextActive` always returns: from
every state, grid dimensions and starting indices there is a fuel with
which the fuelled loop yields a result, and any larger fuel yields the same
result; consequently `findNextActive` yields `some` whenever the grid is
non-empty (so `markDone`, `markDead` and `revive` never meet an undefined
scan). -/
theorem findNextActive_terminates :
    (∀ (s : State) (rows cols fromRow fromCol : Nat),
      ∃ fuel v, findNextActiveLoop s rows cols fuel fromRow fromCol = some v ∧
        ∀ fuel', fuel ≤ fuel' →
          findNextActiveLoop s rows cols fuel' fromRow fromCol = some v) ∧
    (∀ (s : State) (fromRow fromCol : Nat),
      s.participants.length ≠ 0 → s.phases.length ≠ 0 →
      ∃ nc, findNextActive s fromRow fromCol = some nc) := by
  constructor
  · intro s rows cols fromRow fromCol
    obtain ⟨v, hv⟩ := loop_measure_some s rows cols
      (scanMeasure rows cols fromRow fromCol) fromRow fromCol (le_refl _)
    exact ⟨scanMeasure rows cols fromRow fromCol, v, hv,
      fun fuel' hf => loop_mono s rows cols _ fromRow fromCol v hv fuel' hf⟩
  · intro s fromRow fromCol hrows hcols
    obtain ⟨v, hv⟩ := loop_measure_some s s.participants.length
      s.phases.length (scanMeasure s.participants.length s.phases.length
        fromRow fromCol) fromRow fromCol (le_refl _)
    refine ⟨v, ?_⟩
    simp only [findNextActive]
    rw [if_neg (by omega)]
    exact loop_mono s _ _ _ fromRow fromCol v hv _ (scanMeasure_le_fuel _ _ _ _)

/-- Witness for C8 on the walkthrough state. -/
theorem findNextActive_terminates_witness :
    ∃ nc, findNextActive walkthroughStart 0 0 = some nc :=
  findNextActive_terminates.2 walkthroughStart 0 0 (by decide) (by decide)

/-! ## Claim C3: the outcome of `markDone` -/

/-- C3 counterexample: with the single `"active"` entry at the out-of-grid
key `0-1` of a 1×1 grid and no earlier dead column, the claim predicts the
cell becomes `"done"`; in fact the advancement scan wraps around to the very
same cell and re-activates it, so it ends `"active"`. -/
theorem markDone_outcome_counterexample :
    cellAt (⟨["A"], ["P1"], [(getCellKey 0 1, PhaseCellState.active)]⟩ : State)
        0 1 = PhaseCellState.active ∧
    (∀ c < 1, cellAt
      (⟨["A"], ["P1"], [(getCellKey 0 1, PhaseCellState.active)]⟩ : State)
        0 c ≠ PhaseCellState.dead) ∧
    cellAt (markDone
      (⟨["A"], ["P1"], [(getCellKey 0 1, PhaseCellState.active)]⟩ : State)
        0 1) 0 1 ≠ PhaseCellState.done ∧
    cellAt (markDone
      (⟨["A"], ["P1"], [(getCellKey 0 1, PhaseCellState.active)]⟩ : State)
        0 1) 0 1 = PhaseCellState.active := by
  decide

/-- C3 (amended): for every state and indices `(row, col)` whose cell is
`"active"` and whose column index is in the grid (`col <` phase count),
`markDone` sets that cell to `"dead"` exactly when some earlier column
`c < col` of the row is `"dead"`, and to `"done"` otherwise. -/
theorem markDone_outcome (s : State) (row col : Nat)
    (hact : cellAt s row col = PhaseCellState.active)
    (hcol : col < s.phases.length) :
    (isCharacterDeadInPreviousPhase s row col = true ↔
      ∃ c < col, cellAt s row c = PhaseCellState.dead) ∧
    cellAt (markDone s row col) row col =
      (if isCharacterDeadInPreviousPhase s row col then PhaseCellState.dead
       else PhaseCellState.done) := by
  constructor
  · unfold isCharacterDeadInPreviousPhase
    rw [List.any_eq_true]
    constructor
    · rintro ⟨c, hc, hd⟩
      exact ⟨c, List.mem_range.mp hc, of_decide_eq_true hd⟩
    · rintro ⟨c, hc, hd⟩
      exact ⟨c, List.mem_range.mpr hc, decide_eq_true hd⟩
  · unfold markDone markDoneAct
    cases hf : findNextActive s row col with
    | none =>
      rw [transitionCell_active_none _ hact hf]
      simp only [Option.getD_some]
      unfold cellAt
      simp only
      rw [recordGet_recordSet_self]
      rfl
    | some nc =>
      rw [transitionCell_active_some _ hact hf]
      simp only [Option.getD_some]
      unfold cellAt
      simp only
      have hne : getCellKey row col ≠ getCellKey nc.row nc.col := by
        intro he
        obtain ⟨h1, h2⟩ := getCellKey_injective row col nc.row nc.col he
        exact findNextActive_ne_start hcol hf ⟨h1.symm, h2.symm⟩
      rw [recordGet_recordSet_ne _ _ _ _ hne, recordGet_recordSet_self]
      rfl

/-- Witness for C3 on the walkthrough state. -/
theorem markDone_outcome_witness :
    cellAt (markDone walkthroughStart 0 0) 0 0 =
      (if isCharacterDeadInPreviousPhase walkthroughStart 0 0 then
        PhaseCellState.dead
      else PhaseCellState.done) :=
  (markDone_outcome walkthroughStart 0 0 (by decide) (by decide)).2

/-! ## Claim C9: the frame of the transition operations -/

theorem transition_frame {s : State} {row col : Nat} {v : PhaseCellState}
    (hact : cellAt s row col = PhaseCellState.active) :
    ∀ s', transitionCell s row col v = some s' → FrameSpec s row col s' := by
  intro s' hs'
  cases hf : findNextActive s row col with
  | none =>
    rw [transitionCell_active_none v hact hf] at hs'
    obtain rfl := Option.some.inj hs'
    unfold FrameSpec
    rw [hf]
    refine ⟨rfl, rfl, ?_⟩
    intro r' c' hne
    unfold cellAt
    simp only
    rw [recordGet_recordSet_ne]
    intro he
    obtain ⟨h1, h2⟩ := getCellKey_injective r' c' row col he
    exact hne ⟨h1, h2⟩
  | some nc =>
    rw [transitionCell_active_some v hact hf] at hs'
    obtain rfl := Option.some.inj hs'
    unfold FrameSpec
    rw [hf]
    refine ⟨rfl, ?_, ?_⟩
    · cases hap : nc.addPhase
      · simp only [hap, Bool.false_eq_true, if_false]
      · simp only [hap, if_true]
        exact ⟨_, rfl⟩
    · intro r' c' hne1 hne2
      unfold cellAt
      simp only
      rw [recordGet_recordSet_ne, recordGet_recordSet_ne]
      · intro he
        obtain ⟨h1, h2⟩ := getCellKey_injective r' c' row col he
        exact hne1 ⟨h1, h2⟩
      · intro he
        obtain ⟨h1, h2⟩ := getCellKey_injective r' c' nc.row nc.col he
        exact hne2 ⟨h1, h2⟩

/-- C9: for every state where cell `(row, col)` is `"active"`, each of
`markDone`, `markDead` and `revive` leaves the participants unchanged,
leaves the phases unchanged except that on the append-signal exactly one
label is appended, and modifies the values map only at `(row, col)` and at
the newly activated cell. -/
theorem transition_frame_ops (s : State) (row col : Nat)
    (hact : cellAt s row col = PhaseCellState.active) :
    FrameSpec s row col (markDone s row col) ∧
    FrameSpec s row col (markDead s row col) ∧
    FrameSpec s row col (revive s row col) := by
  have hsome : ∀ v : PhaseCellState,
      ∃ s', transitionCell s row col v = some s' := by
    intro v
    cases hf : findNextActive s row col with
    | none => exact ⟨_, transitionCell_active_none v hact hf⟩
    | some nc => exact ⟨_, transitionCell_active_some v hact hf⟩
  refine ⟨?_, ?_, ?_⟩
  · obtain ⟨s', hs'⟩ := hsome
      (if isCharacterDeadInPreviousPhase s row col then PhaseCellState.dead
       else PhaseCellState.done)
    unfold markDone markDoneAct
    rw [hs']
    simp only [Option.getD_some]
    exact transition_frame hact s' hs'
  · obtain ⟨s', hs'⟩ := hsome PhaseCellState.dead
    unfold markDead markDeadAct
    rw [hs']
    simp only [Option.getD_some]
    exact transition_frame hact s' hs'
  · obtain ⟨s', hs'⟩ := hsome PhaseCellState.revived
    unfold revive reviveAct
    rw [hs']
    simp only [Option.getD_some]
    exact transition_frame hact s' hs'

/-- Witness for C9 on the walkthrough state. -/
theorem transition_frame_ops_witness :
    FrameSpec walkthroughStart 0 0 (markDone walkthroughStart 0 0) :=
  (transition_frame_ops walkthroughStart 0 0 (by decide)).1

/-! ## Claim C6: retroactive revival display -/

theorem find?_range'_min :
    ∀ (len start : Nat) (p : Nat → Bool) (x : Nat),
      (List.range' start len).find? p = some x →
      p x = true ∧ start ≤ x ∧ x < start + len ∧
        ∀ y, start ≤ y → y < x → p y = false := by
  intro len
  induction len with
  | zero =>
    intro start p x h
    rw [List.range'_zero] at h
    simp at h
  | succ len ih =>
    intro start p x h
    rw [List.range'_succ] at h
    by_cases hp : p start = true
    · rw [List.find?_cons_of_pos _ hp] at h
      obtain rfl : start = x := by simpa using h
      exact ⟨hp, le_refl _, by omega, fun y hy1 hy2 => absurd hy2 (by omega)⟩
    · rw [List.find?_cons_of_neg _ hp] at h
      obtain ⟨h1, h2, h3, h4⟩ := ih (start + 1) p x h
      refine ⟨h1, by omega, by omega, ?_⟩
      intro y hy1 hy2
      by_cases hys : y = start
      · subst hys
        rw [Bool.not_eq_true] at hp
        exact hp
      · exact h4 y (by omega) hy2

theorem find?_range_min (n : Nat) (p : Nat → Bool) (x : Nat)
    (h : (List.range n).find? p = some x) :
    p x = true ∧ x < n ∧ ∀ y < x, p y = false := by
  rw [List.range_eq_range'] at h
  obtain ⟨h1, h2, h3, h4⟩ := find?_range'_min n 0 p x h
  exact ⟨h1, by omega, fun y hy => h4 y (by omega) hy⟩

theorem renderDeadCellLabel_none {s : State} {rowIndex : Nat}
    (colIndex : Nat) (h : getRevivedPhaseColumn s rowIndex = none) :
    renderDeadCellLabel s rowIndex colIndex = "Dead" := by
  unfold renderDeadCellLabel
  rw [h]

theorem renderDeadCellLabel_some {s : State} {rowIndex rc : Nat}
    (colIndex : Nat) (h : getRevivedPhaseColumn s rowIndex = some rc) :
    renderDeadCellLabel s rowIndex colIndex =
      if colIndex > rc then "Done" else "Dead" := by
  unfold renderDeadCellLabel
  rw [h]

/-- C6: an in-grid cell stored as `"dead"` at `(row, col)` is rendered
`"Done"` exactly when the row has a revived cell whose first (lowest-index)
revived column is strictly below `col`; otherwise it is rendered
`"Dead"`. -/
theorem dead_cell_render (s : State) (row col : Nat)
    (hcol : col < s.phases.length)
    (_hdead : cellAt s row col = PhaseCellState.dead) :
    (renderDeadCellLabel s row col = "Done" ↔
      ∃ c0, cellAt s row c0 = PhaseCellState.revived ∧
        (∀ c < c0, cellAt s row c ≠ PhaseCellState.revived) ∧ c0 < col) ∧
    (renderDeadCellLabel s row col = "Done" ∨
      renderDeadCellLabel s row col = "Dead") := by
  cases hfind : getRevivedPhaseColumn s row with
  | none =>
    rw [renderDeadCellLabel_none col hfind]
    constructor
    · constructor
      · intro h
        exact absurd h (by decide)
      · rintro ⟨c0, hrev, hmin, hlt⟩
        exfalso
        have := List.find?_eq_none.mp hfind c0 (List.mem_range.mpr (by omega))
        simp at this
        exact this hrev
    · exact Or.inr rfl
  | some rc =>
    obtain ⟨h1, h2, h3⟩ := find?_range_min _ _ rc hfind
    have hrev : cellAt s row rc = PhaseCellState.revived := of_decide_eq_true h1
    rw [renderDeadCellLabel_some col hfind]
    by_cases hgt : col > rc
    · rw [if_pos hgt]
      constructor
      · constructor
        · intro _
          refine ⟨rc, hrev, ?_, hgt⟩
          intro c hc
          have := h3 c hc
          simp at this
          exact this
        · intro _
          rfl
      · exact Or.inl rfl
    · rw [if_neg hgt]
      constructor
      · constructor
        · intro h
          exact absurd h (by decide)
        · rintro ⟨c0, hrev0, hmin0, hlt0⟩
          exfalso
          have hc0rc : c0 < rc := by omega
          have := h3 c0 hc0rc
          simp at this
          exact this hrev0
      · exact Or.inr rfl

/-- Witness for C6: a row revived at column 0 and dead at column 1 renders
the dead cell as Done or Dead (here: Done). -/
theorem dead_cell_render_witness :
    renderDeadCellLabel (⟨["A"], ["P1", "P2"],
        [(getCellKey 0 0, PhaseCellState.revived),
         (getCellKey 0 1, PhaseCellState.dead)]⟩ : State) 0 1 = "Done" ∨
    renderDeadCellLabel (⟨["A"], ["P1", "P2"],
        [(getCellKey 0 0, PhaseCellState.revived),
         (getCellKey 0 1, PhaseCellState.dead)]⟩ : State) 0 1 = "Dead" :=
  (dead_cell_render _ 0 1 (by decide) (by decide)).2

end Tracker
